import Mathlib

/-!
Verification of canvas-dl (adrianmgg/canvas-dl).

Shallow embedding of the parts of the program the specification's claims
are about:

* `_DBResourceTable.insert` / `create_table` from `src/canvas_dl/canvas/db.py`
  (the versioned resource store);
* `Course.to_db_json_hash_normalized` from `src/canvas_dl/canvas/models.py`
  (payload normalization before hashing);
* `Canvas._paginate` from `src/canvas_dl/canvas/__init__.py` (the paginated
  fetch loop);
* the file-placement and folder-traversal logic of `main` from
  `src/canvas_dl/__init__.py`.

Tables are embedded as lists of rows in insertion order (sqlite rowid
order), machine integers as `Int`/`Nat` (no overflow is relevant: sqlite
INTEGER columns hold the 64-bit hash which we treat as an opaque `Int`),
timestamps as `Nat`, and the filesystem as explicit inductive state.
-/

namespace CanvasDL

/-! ## The versioned resource store (`db.py`, `_DBResourceTable`)

One row of a resource table, as created by `_DBResourceTable.create_table`:
columns are the identity columns (1–3 INTEGER columns depending on the
kind), `saved_on`, `last_seen_on`, `version`, `is_current`, `data`,
`data_hash`.  The identity columns are modelled as a `List Int` (their
values in `id_column_names` order), timestamps as `Nat`. -/
structure Row where
  ids : List Int
  saved_on : Nat
  last_seen_on : Nat
  version : Int
  is_current : Bool
  data : String
  data_hash : Int
  deriving DecidableEq, Repr

/-- The two payload-dependent computations `insert` performs on its `item`
argument.  `rawJson` models `json.dumps(item._raw, sort_keys=True)`.

`hashForDb` models
`int.from_bytes(item.hash_for_db(sha256()).digest()[-8:], 'big', signed=True)`.
Modelled from the spec: the method `hash_for_db` is called by
`db.py:insert` but is not defined anywhere under `src/`; per the spec,
"`content_hash` is computed from a **normalized** projection of the
payload", i.e. it is a digest of `to_db_json_hash_normalized()`'s result.
Here it is kept as an abstract function of the payload; for the `Course`
kind a concrete normalized form is given below. -/

structure ModelFns (P : Type) where
  rawJson : P → String
  hashForDb : P → Int

/-- The rows of the table that belong to one identity
(`WHERE (id = :id AND ...)` of `query_where_ids`). -/

def rowsFor (t : List Row) (i : List Int) : List Row :=
  t.filter (fun r => r.ids == i)

/-- The query `SELECT ... WHERE ids AND is_current = 1` followed by `fetchone()`:
the first row (in insertion order) of this identity that is current. -/

def findCurrent (t : List Row) (i : List Int) : Option Row :=
  t.find? (fun r => r.ids == i && r.is_current)

/-- The version number of the identity's current row, `-1` if the
identity has no row yet (the `or (None, -1)` default in `insert`). -/

def curVersion (t : List Row) (i : List Int) : Int :=
  match findCurrent t i with
  | some r => r.version
  | none => -1

/-- The statement `UPDATE t SET last_seen_on = :now WHERE ids AND version = :v`, as a
per-row transformation (db.py lines 182–185). -/

def touchSeen (i : List Int) (v : Int) (now : Nat) (r : Row) : Row :=
  if r.ids == i && r.version == v then { r with last_seen_on := now } else r

/-- The statement `UPDATE t SET is_current = 0 WHERE ids AND version = :v`, as a
per-row transformation (db.py lines 190–193). -/

def clearCurrent (i : List Int) (v : Int) (r : Row) : Row :=
  if r.ids == i && r.version == v then { r with is_current := false } else r

/-- The row the `INSERT INTO t VALUES(...)` statement appends (db.py
lines 194–205): both timestamps are `source_date`, `is_current = 1`. -/

def newRow (i : List Int) (now : Nat) (v : Int) (d : String) (h : Int) : Row :=
  { ids := i, saved_on := now, last_seen_on := now, version := v,
    is_current := true, data := d, data_hash := h }

/-- The method `_DBResourceTable.insert` (db.py lines 157–206).  Returns the
`(did we actually write a new item, version number of the written item)`
pair together with the table after the call.  `sourceDate` stands for
`datetime.datetime.now()` at the time of the call. -/
def dbInsert {P : Type} (F : ModelFns P) (t : List Row) (idCols : List Int)
    (item : P) (dryRun : Bool) (sourceDate : Nat) : (Bool × Int) × List Row :=
  let fetched := findCurrent t idCols
  let existingDataHash : Option Int := fetched.map (fun r => r.data_hash)
  let prevVersion : Int := (fetched.map (fun r => r.version)).getD (-1)
  let newData := F.rawJson item
  let newDataHash := F.hashForDb item
  if existingDataHash = some newDataHash then
    ((false, prevVersion),
      if dryRun then t
      else t.map (touchSeen idCols prevVersion sourceDate))
  else
    let newVersion := prevVersion + 1
    ((true, newVersion),
      if dryRun then t
      else (t.map (clearCurrent idCols prevVersion))
        ++ [newRow idCols sourceDate newVersion newData newDataHash])

/-- Well-formedness of one identity's row set: every current row carries
the top version number, a current row exists once any row exists, and the
version numbers are exactly `0, 1, ..., n-1` (each once). -/

def WFat (t : List Row) (i : List Int) : Prop :=
  (∀ r ∈ rowsFor t i, r.is_current = true →
      r.version = ((rowsFor t i).length : Int) - 1)
  ∧ (rowsFor t i ≠ [] → ∃ r ∈ rowsFor t i, r.is_current = true)
  ∧ ((rowsFor t i).map (fun r => r.version)).Perm
      ((List.range (rowsFor t i).length).map (fun k : Nat => (k : Int)))

instance (t : List Row) (i : List Int) : Decidable (WFat t i) := by
  unfold WFat
  infer_instance

/-- Well-formedness of the whole table. -/

def WF (t : List Row) : Prop := ∀ i, WFat t i

/-- One `insert` call of a sequence. -/
structure InsOp (P : Type) where
  idCols : List Int
  item : P
  dryRun : Bool
  time : Nat

/-- The table produced by running a sequence of `insert` calls against an
initially empty table (a freshly created database file). -/

def applyOps {P : Type} (F : ModelFns P) (ops : List (InsOp P)) : List Row :=
  ops.foldl
    (fun t op => (dbInsert F t op.idCols op.item op.dryRun op.time).2) []

/-! ## Concrete payload model used by the witnesses

Payloads are strings; the raw JSON is the string itself and the
(normalized) hash is the string's length. -/
def F0 : ModelFns String :=
  { rawJson := fun s => s, hashForDb := fun s => (s.length : Int) }

/-- Witness table: one identity `[1]` with a single current version-0
row whose hash matches `F0`'s hash of any 1-character payload. -/

def rcW : Row :=
  { ids := [1], saved_on := 0, last_seen_on := 0, version := 0,
    is_current := true, data := "a", data_hash := 1 }

def tW : List Row := [rcW]

/-- The single-insert op sequence used by the C2 witness, and the row it
produces. -/
def opsW : List (InsOp String) := [{ idCols := [1], item := "a", dryRun := false, time := 0 }]

def r1W : Row := newRow [1] 0 0 "a" 1

def opW2 : InsOp String :=
  { idCols := [1], item := "ccc", dryRun := false, time := 2 }

/-- C10 witness rows: identity `[1]` with an old non-current version-0
row whose content hash `1` returns in the payload of a later insert. -/
def rOldW : Row :=
  { ids := [1], saved_on := 0, last_seen_on := 0, version := 0,
    is_current := false, data := "a", data_hash := 1 }

def rCurW : Row :=
  { ids := [1], saved_on := 1, last_seen_on := 1, version := 1,
    is_current := true, data := "bb", data_hash := 2 }

def t10W : List Row := [rOldW, rCurW]

/-! ## Course payload normalization (models.py, `Course`)

`Course.to_db_json_hash_normalized` (models.py lines 104–112) deep-copies
the raw payload and, for each of `image_download_url` and
`banner_image_download_url` that is present and holds a string, replaces
it by `str(URL(url).without_query_params('token'))`.  Raw payloads are
JSON objects; Python dicts preserve insertion order, and assigning an
existing key updates it in place. -/
inductive JVal where
  | str (s : String)
  | num (n : Int)
  | null
  deriving DecidableEq, Repr

abbrev CourseData := List (String × JVal)

/-- Models `url_key in data and data[url_key]`. -/

def dictGet (d : CourseData) (k : String) : Option JVal :=
  (d.find? (fun kv => kv.1 == k)).map (fun kv => kv.2)

/-- Models `data[url_key] = v` for a key already present: update in place,
order preserved. -/

def dictSet (d : CourseData) (k : String) (v : JVal) : CourseData :=
  d.map (fun kv => if kv.1 == k then (kv.1, v) else kv)

/-- Split a character list at every occurrence of `sep`. -/

def splitListOn (sep : Char) : List Char → List (List Char)
  | [] => [[]]
  | c :: rest =>
      let r := splitListOn sep rest
      if c = sep then [] :: r
      else
        match r with
        | [] => [[c]]
        | g :: gs => (c :: g) :: gs

def joinWith (sep : Char) : List (List Char) → List Char
  | [] => []
  | [g] => g
  | g :: gs => g ++ sep :: joinWith sep gs

/-- The name part of one `name=value` query parameter. -/

def paramName (prm : List Char) : List Char :=
  (splitListOn '=' prm).headD []

/-- Models `str(URL(url).without_query_params('token'))` — `yarl` is an
external dependency of the repository, so this is modelled for
well-formed URLs whose query is a `&`-separated list of `name[=value]`
parameters: drop every parameter named `token`, drop the `?` when no
parameter remains.  (The source's `try/except ValueError` guard never
fires in this model.) -/

def stripTokenParam (url : String) : String :=
  match splitListOn '?' url.data with
  | [] => url
  | [_] => url
  | base :: rest =>
      let params := (splitListOn '&' (joinWith '?' rest)).filter
        (fun prm => paramName prm ≠ "token".data)
      if params.isEmpty then String.mk base
      else String.mk (base ++ '?' :: joinWith '&' params)

/-- One iteration of the `for url_key in ...` loop: if the key is present
and holds a string, strip its `token` parameter. -/

def normalizeUrlKey (d : CourseData) (k : String) : CourseData :=
  match dictGet d k with
  | some (JVal.str url) => dictSet d k (JVal.str (stripTokenParam url))
  | _ => d

/-- The method `Course.to_db_json_hash_normalized` (models.py lines 104–112). -/

def courseHashNormalized (d : CourseData) : CourseData :=
  normalizeUrlKey (normalizeUrlKey d "image_download_url")
    "banner_image_download_url"

/-- Code-point comparison of strings (Python's `<` on `str`), used to
model `sort_keys=True`. -/

def chListLt : List Char → List Char → Bool
  | [], [] => false
  | [], _ :: _ => true
  | _ :: _, [] => false
  | a :: as, b :: bs =>
      if a.toNat < b.toNat then true
      else if b.toNat < a.toNat then false
      else chListLt as bs

def insertSorted (kv : String × JVal) : CourseData → CourseData
  | [] => [kv]
  | x :: xs =>
      if chListLt x.1.data kv.1.data then x :: insertSorted kv xs
      else kv :: x :: xs

def sortByKey : CourseData → CourseData
  | [] => []
  | x :: xs => insertSorted x (sortByKey xs)

def encodeJVal : JVal → String
  | .str s => "\"" ++ s ++ "\""
  | .num n => toString n
  | .null => "null"

/-- Models `json.dumps(raw, sort_keys=True)` for an object payload: keys in
sorted order, default separators.  (String escaping is not modelled; no
witness payload needs it.) -/

def jsonDumpsSorted (d : CourseData) : String :=
  "\x7b" ++ String.intercalate ", "
    ((sortByKey d).map (fun kv => "\"" ++ kv.1 ++ "\": " ++ encodeJVal kv.2))
  ++ "\x7d"

/-- The `ModelFns` of the Course kind: raw JSON via
`json.dumps(item._raw, sort_keys=True)`; hash via the digest `H` of the
normalized payload.  Modelled from the spec: the digest step
(`hash_for_db`, sha256 of the normalized projection) is absent from
`src/`, so `H` is kept abstract. -/

def courseFns (H : CourseData → Int) : ModelFns CourseData :=
  { rawJson := jsonDumpsSorted,
    hashForDb := fun d => H (courseHashNormalized d) }

/-- A concrete stand-in digest for evaluating witnesses. -/

def H0 (d : CourseData) : Int := ((jsonDumpsSorted d).length : Int)

/-- Course payloads differing only in the `token` query parameter of
`image_download_url`. -/

def d1C : CourseData :=
  [("uuid", JVal.str "u"),
   ("image_download_url", JVal.str "https://cdn.example/img.png?token=abc")]

def d2C : CourseData :=
  [("uuid", JVal.str "u"),
   ("image_download_url", JVal.str "https://cdn.example/img.png?token=def")]

/-- The table after inserting `d1C` for identity `[7]` into a fresh
table. -/

def t1C : List Row := (dbInsert (courseFns H0) [] [7] d1C false 0).2

/-! ## Pagination (`canvas/__init__.py`, `Canvas._paginate`)

`_paginate` issues a first request built from the caller's path and
parameters (plus the HTTP method), yields the decoded page items, then —
while the response carries a `next` link with a `url` — requests that
`url` forwarding only `kwargs_always` (the method), never the original
query parameters.  The remote is modelled as a total function from
requests to page responses; the `while` loop gets explicit fuel (any
amount at least the page count behaves like the source loop). -/
structure Request where
  url : String
  params : List (String × String)
  method : String
  deriving DecidableEq, Repr

structure PageResponse (α : Type) where
  items : List α
  nextUrl : Option String

/-- The `while (next_page := response.links.get('next')) ...` loop:
requests the link target with empty params and the forwarded method. -/

def paginateLoop {α : Type} (remote : Request → PageResponse α)
    (method : String) : Nat → Option String → List α × List Request
  | _, none => ([], [])
  | 0, some _ => ([], [])
  | fuel + 1, some u =>
      let req : Request := { url := u, params := [], method := method }
      ((remote req).items
          ++ (paginateLoop remote method fuel (remote req).nextUrl).1,
        req :: (paginateLoop remote method fuel (remote req).nextUrl).2)

/-- The coroutine `Canvas._paginate`: the full item sequence it yields together with
the requests it issues, in order. -/

def paginate {α : Type} (remote : Request → PageResponse α) (path : String)
    (params : List (String × String)) (method : String) (fuel : Nat) :
    List α × List Request :=
  let req0 : Request := { url := path, params := params, method := method }
  ((remote req0).items
      ++ (paginateLoop remote method fuel (remote req0).nextUrl).1,
    req0 :: (paginateLoop remote method fuel (remote req0).nextUrl).2)

/-- A remote serving three pages of two items linked via `next`. -/

def remote3 : Request → PageResponse Nat := fun req =>
  if req.url = "p0" then { items := [1, 2], nextUrl := some "p1" }
  else if req.url = "p1" then { items := [3, 4], nextUrl := some "p2" }
  else if req.url = "p2" then { items := [5, 6], nextUrl := none }
  else { items := [], nextUrl := none }

/-- A remote whose first response has no `next` link. -/

def remote1 : Request → PageResponse Nat :=
  fun _ => { items := [1, 2], nextUrl := none }

/-! ## File placement (`__init__.py`, `main`, lines 92–135)

After the dry-run predicts a metadata change, `main` streams the download
into a `NamedTemporaryFile(delete_on_close=False, delete=False)` while
hashing it, then places it relative to the canonical path
`file_out_path`.  File contents are byte lists; the state at the
canonical path is `absent`, a bare file, or a directory of
`(entry name, content)` pairs. -/
inductive FSNode where
  | absent
  | bare (content : List Nat)
  | dir (entries : List (String × List Nat))
  deriving DecidableEq, Repr

def dirEntries : FSNode → List (String × List Nat)
  | FSNode.dir es => es
  | _ => []

/-- A `hashlib` hash object, as returned by `hashlib.file_digest` — a
Python object carrying the content it hashed, not a `bytes` value. -/

structure HashObj where
  src : List Nat
  deriving DecidableEq, Repr

/-- The digest bytes `download_hasher.digest()`, idealized as an
injective (collision-free) function of the hashed content. -/

def sha256Digest (b : List Nat) : List Nat := b

/-- Python's `!=` between a hash object and a `bytes` value, the
comparison `main` performs at lines 112 and 121
(`existing_version_hash != download_hash`): `hashlib` hash objects
define no `__eq__`, so equality falls back to object identity, and a
hash object is never the same object as a `bytes` value — the
comparison is `True` for all inputs. -/

def hashObjNeBytes (_h : HashObj) (_b : List Nat) : Bool := true

def digitChar (n : Nat) : Char := Char.ofNat (48 + n)

/-- Models `f'{version_num:05d}'` for the version numbers that occur
(`0 ≤ v < 100000`). -/

def pad5 (v : Int) : String :=
  let n := v.toNat
  String.mk [digitChar (n / 10000 % 10), digitChar (n / 1000 % 10),
    digitChar (n / 100 % 10), digitChar (n / 10 % 10), digitChar (n % 10)]

/-- Models `sorted(file_out_path.iterdir(), key=lambda p: p.name[:5],
reverse=True)` followed by `next(iter(...), None)`: the entry whose
5-character name prefix is largest (stable: the earliest such entry on
ties). -/

def latestEntry (entries : List (String × List Nat)) :
    Option (String × List Nat) :=
  entries.foldl (fun acc e =>
    match acc with
    | none => some e
    | some a =>
        if chListLt (a.1.data.take 5) (e.1.data.take 5) then some e
        else some a)
    none

/-- Result of one placement: the state at the canonical path, files the
call created in the process working directory, whether the temporary
download file still exists, and whether an `assert` fired. -/

structure PlaceResult where
  node : FSNode
  cwdEntries : List (String × List Nat)
  tempRemains : Bool
  assertFailed : Bool
  deriving DecidableEq, Repr

/-- The placement step of `main` (lines 100–134), entered with the new
content already written to the temporary file.  `versionNum` is the
version number the dry-run returned, `filenameNorm` the sanitized
filename.

* directory case (lines 102–114): hash the latest numbered entry,
  compare, and on "different" rename the temp file in as the new
  numbered entry (`assert not file_numbered_out_path.exists()`);
* bare-file case (lines 115–131): hash the bare file, compare, and on
  "different" move the bare file into a `TemporaryDirectory`, `mkdir`
  the canonical path, `assert version_num != 0`, then rename the old
  file to the **relative** path `f'00000 {filename_normalized}'` — which
  resolves in the process working directory, not in the new directory —
  and rename the temp file in as the numbered entry;
* absent case (lines 132–134): rename the temp file to the canonical
  path.

A failed `assert` leaves the states the statements before it produced
(in the bare case the old file has then been moved into the
`TemporaryDirectory`, which deletes it on exit). -/

def placeDownload (node : FSNode) (downloadBytes : List Nat)
    (versionNum : Int) (filenameNorm : String) : PlaceResult :=
  let downloadHash := sha256Digest downloadBytes
  let numberedName := pad5 versionNum ++ " " ++ filenameNorm
  match node with
  | FSNode.dir entries =>
      match latestEntry entries with
      | none =>
          { node := node, cwdEntries := [], tempRemains := true,
            assertFailed := false }
      | some latest =>
          if hashObjNeBytes { src := latest.2 } downloadHash then
            if entries.any (fun e => e.1 == numberedName) then
              { node := node, cwdEntries := [], tempRemains := true,
                assertFailed := true }
            else
              { node := FSNode.dir (entries ++ [(numberedName, downloadBytes)]),
                cwdEntries := [], tempRemains := false,
                assertFailed := false }
          else
            { node := node, cwdEntries := [], tempRemains := true,
              assertFailed := false }
  | FSNode.bare existingBytes =>
      if hashObjNeBytes { src := existingBytes } downloadHash then
        if versionNum == 0 then
          { node := FSNode.dir [], cwdEntries := [], tempRemains := true,
            assertFailed := true }
        else
          { node := FSNode.dir [(numberedName, downloadBytes)],
            cwdEntries := [("00000 " ++ filenameNorm, existingBytes)],
            tempRemains := false, assertFailed := false }
      else
        { node := node, cwdEntries := [], tempRemains := true,
          assertFailed := false }
  | FSNode.absent =>
      { node := FSNode.bare downloadBytes, cwdEntries := [],
        tempRemains := false, assertFailed := false }

/-! ## Folder traversal and failure isolation (`__init__.py`, `main`,
lines 59–137)

`main` keeps a `deque` of folders to process, pops from its right end
(LIFO), and for each folder runs two `try` blocks: listing subfolders
(inserting their rows and pushing them) and listing files (recording each
file).  Both blocks catch exactly `aiohttp.ClientResponseError` (a bad
HTTP status) and print an error; any other exception — in particular a
pydantic validation error from a malformed page body — propagates out of
the whole loop.

The queue is represented right-end first, so pop is the head and
appending `subs` in order is `subs.reverse ++ rest`.  The per-file work
is abstracted to recording the file id. -/
inductive LErr where
  | clientResponse
  | decode
  deriving DecidableEq, Repr

/-- How the remote answers the two listings for each folder id. -/

structure FolderEnv where
  subfolders : Nat → Except LErr (List Nat)
  files : Nat → Except LErr (List Nat)

structure RunState where
  folderRows : List Nat
  fileRows : List Nat
  logs : List (Nat × LErr)
  deriving DecidableEq, Repr

/-- The folder loop of `main`.  Returns the aborting folder id when an
uncaught exception escapes the loop, else the final state.  For each
popped folder: the subfolders `try` block (push subfolder rows and queue
entries; catch only `ClientResponseError`), then the files `try` block
(record file rows; catch only `ClientResponseError`). -/

def processFolders (env : FolderEnv) :
    Nat → List Nat → RunState → Except Nat RunState
  | _, [], st => Except.ok st
  | 0, _ :: _, st => Except.ok st
  | fuel + 1, cur :: rest, st =>
      let afterSub : Except Nat (List Nat × RunState) :=
        match env.subfolders cur with
        | Except.error LErr.decode => Except.error cur
        | Except.error LErr.clientResponse =>
            Except.ok (rest,
              { st with logs := st.logs ++ [(cur, LErr.clientResponse)] })
        | Except.ok subs =>
            Except.ok (subs.reverse ++ rest,
              { st with folderRows := st.folderRows ++ subs })
      match afterSub with
      | Except.error e => Except.error e
      | Except.ok (queue2, st2) =>
          match env.files cur with
          | Except.error LErr.decode => Except.error cur
          | Except.error LErr.clientResponse =>
              processFolders env fuel queue2
                { st2 with logs := st2.logs ++ [(cur, LErr.clientResponse)] }
          | Except.ok fs =>
              processFolders env fuel queue2
                { st2 with fileRows := st2.fileRows ++ fs }

/-- The run from the C9 scenario: the root folder `0` has subfolders `1`
and `2`; listing files of `2` fails with a malformed body (decode
error); folder `1` holds file `10`. -/

def envC9 : FolderEnv :=
  { subfolders := fun n => Except.ok (if n = 0 then [1, 2] else []),
    files := fun n =>
      if n = 2 then Except.error LErr.decode
      else Except.ok (if n = 1 then [10] else []) }

/-- Same shape, but folder `2`'s files listing fails with a bad status
(`ClientResponseError`) instead. -/

def envC9b : FolderEnv :=
  { subfolders := fun n => Except.ok (if n = 0 then [1, 2] else []),
    files := fun n =>
      if n = 2 then Except.error LErr.clientResponse
      else Except.ok (if n = 1 then [10] else []) }

def runStart : RunState := { folderRows := [], fileRows := [], logs := [] }

/-! ## Theorems -/

theorem newRow_ids (i : List Int) (now : Nat) (v : Int) (d : String)
    (h : Int) : (newRow i now v d h).ids = i := rfl

theorem mem_rowsFor {t : List Row} {i : List Int} {r : Row} :
    r ∈ rowsFor t i ↔ r ∈ t ∧ r.ids = i := by
  simp [rowsFor, List.mem_filter]

theorem WF_nil : WF [] := by
  intro i
  refine ⟨?_, ?_, ?_⟩ <;> simp [rowsFor]

theorem findCurrent_some {t : List Row} {i : List Int} {r : Row}
    (h : findCurrent t i = some r) :
    r ∈ t ∧ r.ids = i ∧ r.is_current = true := by
  have hm := List.mem_of_find?_eq_some h
  have hp := List.find?_some h
  simp only [Bool.and_eq_true, beq_iff_eq] at hp
  exact ⟨hm, hp.1, hp.2⟩

theorem findCurrent_none {t : List Row} {i : List Int}
    (h : findCurrent t i = none) :
    ∀ r ∈ t, r.ids = i → r.is_current = false := by
  intro r hr hi
  have hnp := List.find?_eq_none.mp h r hr
  simp only [Bool.and_eq_true, beq_iff_eq, not_and] at hnp
  cases hc : r.is_current with
  | false => rfl
  | true => exact absurd hc (hnp hi)

theorem findCurrent_eq_none_of_nil {t : List Row} {i : List Int}
    (h : rowsFor t i = []) : findCurrent t i = none := by
  cases hf : findCurrent t i with
  | none => rfl
  | some r =>
      obtain ⟨hm, hi, _⟩ := findCurrent_some hf
      have : r ∈ rowsFor t i := mem_rowsFor.mpr ⟨hm, hi⟩
      rw [h] at this
      exact absurd this (List.not_mem_nil r)

theorem findCurrent_isSome {t : List Row} {i : List Int} (hw : WFat t i)
    (hne : rowsFor t i ≠ []) : ∃ r, findCurrent t i = some r := by
  obtain ⟨r, hr, hc⟩ := hw.2.1 hne
  have hs : (t.find? (fun r => r.ids == i && r.is_current)).isSome := by
    rw [List.find?_isSome]
    exact ⟨r, (mem_rowsFor.mp hr).1, by simp [(mem_rowsFor.mp hr).2, hc]⟩
  obtain ⟨r', hr'⟩ := Option.isSome_iff_exists.mp hs
  exact ⟨r', hr'⟩

theorem findCurrent_version {t : List Row} {i : List Int} {r : Row}
    (hw : WFat t i) (h : findCurrent t i = some r) :
    r.version = ((rowsFor t i).length : Int) - 1 := by
  obtain ⟨hm, hi, hc⟩ := findCurrent_some h
  exact hw.1 r (mem_rowsFor.mpr ⟨hm, hi⟩) hc

/-- Under well-formedness the `or (None, -1)` default makes the looked-up
version always `#rows - 1`, also when the identity has no rows yet. -/

theorem curVersion_eq {t : List Row} {i : List Int} (hw : WFat t i) :
    curVersion t i = ((rowsFor t i).length : Int) - 1 := by
  by_cases hne : rowsFor t i = []
  · rw [curVersion, findCurrent_eq_none_of_nil hne, hne]
    rfl
  · obtain ⟨r, hr⟩ := findCurrent_isSome hw hne
    rw [curVersion, hr]
    exact findCurrent_version hw hr

/-- The contiguity part of `WFat`, in counting form: every version number
in `[0, n)` occurs exactly once among the identity's rows, every other
number not at all. -/

theorem countP_version {t : List Row} {i : List Int} (hw : WFat t i)
    (v : Int) :
    ((rowsFor t i).countP (fun r => r.version == v)) =
      if 0 ≤ v ∧ v < ((rowsFor t i).length : Int) then 1 else 0 := by
  have hperm := hw.2.2
  have h1 : (rowsFor t i).countP (fun r => r.version == v) =
      ((rowsFor t i).map (fun r => r.version)).count v := by
    rw [List.count, List.countP_map]
    rfl
  have h2 : ((rowsFor t i).map (fun r => r.version)).count v =
      ((List.range (rowsFor t i).length).map (fun k : Nat => (k : Int))).count v :=
    hperm.count_eq v
  have hinj : Function.Injective (fun k : Nat => (k : Int)) :=
    fun a b h => by simpa using h
  have hnd : ((List.range (rowsFor t i).length).map
      (fun k : Nat => (k : Int))).Nodup :=
    List.Nodup.map hinj (List.nodup_range _)
  have hmem : v ∈ (List.range (rowsFor t i).length).map (fun k : Nat => (k : Int)) ↔
      0 ≤ v ∧ v < ((rowsFor t i).length : Int) := by
    constructor
    · intro hv
      obtain ⟨k, hk, he⟩ := List.mem_map.mp hv
      have hk' := List.mem_range.mp hk
      omega
    · rintro ⟨h0, hlt⟩
      exact List.mem_map.mpr ⟨v.toNat, List.mem_range.mpr (by omega), by omega⟩
  rw [h1, h2]
  by_cases hm : 0 ≤ v ∧ v < ((rowsFor t i).length : Int)
  · rw [if_pos hm]
    exact List.count_eq_one_of_mem hnd (hmem.mpr hm)
  · rw [if_neg hm]
    exact List.count_eq_zero_of_not_mem (fun hc => hm (hmem.mp hc))

/-- Version numbers are unique per identity: two rows of the same identity
with the same version number are the same row. -/

theorem row_eq_of_version_eq {t : List Row} {i : List Int} (hw : WFat t i)
    {r s : Row} (hr : r ∈ t) (hri : r.ids = i) (hs : s ∈ t) (hsi : s.ids = i)
    (hv : r.version = s.version) : r = s := by
  by_contra hne
  have hrf : r ∈ (rowsFor t i).filter (fun x => x.version == r.version) := by
    rw [List.mem_filter]
    exact ⟨mem_rowsFor.mpr ⟨hr, hri⟩, by simp⟩
  have hsf : s ∈ (rowsFor t i).filter (fun x => x.version == r.version) := by
    rw [List.mem_filter]
    exact ⟨mem_rowsFor.mpr ⟨hs, hsi⟩, by simp [hv]⟩
  have hse : s ∈ ((rowsFor t i).filter
      (fun x => x.version == r.version)).erase r :=
    (List.mem_erase_of_ne (fun h => hne h.symm)).mpr hsf
  have hpos := List.length_pos_of_mem hse
  rw [List.length_erase_of_mem hrf] at hpos
  have hcount := countP_version hw r.version
  rw [List.countP_eq_length_filter] at hcount
  by_cases hif : 0 ≤ r.version ∧ r.version < ((rowsFor t i).length : Int)
  · rw [if_pos hif] at hcount
    omega
  · rw [if_neg hif] at hcount
    omega

theorem version_bounds {t : List Row} {i : List Int} (hw : WFat t i)
    {r : Row} (hr : r ∈ rowsFor t i) :
    0 ≤ r.version ∧ r.version < ((rowsFor t i).length : Int) := by
  have hv : r.version ∈ (rowsFor t i).map (fun r => r.version) :=
    List.mem_map_of_mem _ hr
  have hv2 := hw.2.2.mem_iff.mp hv
  obtain ⟨k, hk, he⟩ := List.mem_map.mp hv2
  have hk' := List.mem_range.mp hk
  omega

theorem rowsFor_nil_of_findCurrent_none {t : List Row} {i : List Int}
    (hw : WFat t i) (hf : findCurrent t i = none) : rowsFor t i = [] := by
  by_contra hne
  obtain ⟨r, hr⟩ := findCurrent_isSome hw hne
  rw [hf] at hr
  exact Option.noConfusion hr

/-- Well-formedness only looks at the identity's own rows. -/

theorem WFat_congr {t t' : List Row} {i : List Int}
    (h : rowsFor t i = rowsFor t' i) : WFat t i ↔ WFat t' i := by
  unfold WFat
  rw [h]

theorem rowsFor_map {t : List Row} {i : List Int} {f : Row → Row}
    (hf : ∀ r, (f r).ids = r.ids) :
    rowsFor (t.map f) i = (rowsFor t i).map f := by
  unfold rowsFor
  rw [List.filter_map f t]
  congr 1
  apply List.filter_congr
  intro r _
  simp [hf r]

theorem rowsFor_append {t t' : List Row} {i : List Int} :
    rowsFor (t ++ t') i = rowsFor t i ++ rowsFor t' i := by
  unfold rowsFor
  exact List.filter_append ..

/-- A map that does not touch `ids`, `version` or `is_current` preserves
well-formedness at every identity. -/

theorem WFat_map {t : List Row} {i : List Int} {f : Row → Row}
    (hf : ∀ r, (f r).ids = r.ids ∧ (f r).version = r.version ∧
      (f r).is_current = r.is_current)
    (hw : WFat t i) : WFat (t.map f) i := by
  have hids : ∀ r, (f r).ids = r.ids := fun r => (hf r).1
  have hrw : rowsFor (t.map f) i = (rowsFor t i).map f := rowsFor_map hids
  refine ⟨?_, ?_, ?_⟩
  · intro r hr hc
    rw [hrw] at hr
    obtain ⟨s, hs, rfl⟩ := List.mem_map.mp hr
    rw [(hf s).2.2] at hc
    rw [(hf s).2.1, hrw, List.length_map]
    exact hw.1 s hs hc
  · intro hne
    rw [hrw] at hne ⊢
    obtain ⟨r, hr, hc⟩ := hw.2.1 (fun h => hne (by rw [h]; rfl))
    exact ⟨f r, List.mem_map_of_mem f hr, by rw [(hf r).2.2]; exact hc⟩
  · rw [hrw, List.length_map]
    have : ((rowsFor t i).map f).map (fun r => r.version) =
        (rowsFor t i).map (fun r => r.version) := by
      rw [List.map_map]
      exact List.map_congr_left (fun r _ => (hf r).2.1)
    rw [this]
    exact hw.2.2

/-- Branch equation: current row found and its hash matches the new
payload's hash (db.py lines 179–186). -/

theorem dbInsert_eq_seen {P : Type} {F : ModelFns P} {t : List Row}
    {i : List Int} {p : P} {dry : Bool} {now : Nat} {rc : Row}
    (hf : findCurrent t i = some rc) (hh : F.hashForDb p = rc.data_hash) :
    dbInsert F t i p dry now =
      ((false, rc.version),
        if dry then t else t.map (touchSeen i rc.version now)) := by
  simp only [dbInsert, hf, Option.map_some', Option.getD_some]
  rw [if_pos (by rw [hh])]

/-- Branch equation: no current row (db.py lines 187–206 with the
`(None, -1)` default): the new row gets version `0`. -/

theorem dbInsert_eq_first {P : Type} {F : ModelFns P} {t : List Row}
    {i : List Int} {p : P} {dry : Bool} {now : Nat}
    (hf : findCurrent t i = none) :
    dbInsert F t i p dry now =
      ((true, 0),
        if dry then t
        else (t.map (clearCurrent i (-1)))
          ++ [newRow i now 0 (F.rawJson p) (F.hashForDb p)]) := by
  simp only [dbInsert, hf, Option.map_none', Option.getD_none]
  rw [if_neg (by simp)]
  norm_num

/-- Branch equation: current row found but the hash differs (db.py lines
187–206): mark the old current row non-current, insert the next
version. -/

theorem dbInsert_eq_changed {P : Type} {F : ModelFns P} {t : List Row}
    {i : List Int} {p : P} {dry : Bool} {now : Nat} {rc : Row}
    (hf : findCurrent t i = some rc) (hh : F.hashForDb p ≠ rc.data_hash) :
    dbInsert F t i p dry now =
      ((true, rc.version + 1),
        if dry then t
        else (t.map (clearCurrent i rc.version))
          ++ [newRow i now (rc.version + 1) (F.rawJson p) (F.hashForDb p)]) := by
  simp only [dbInsert, hf, Option.map_some', Option.getD_some]
  rw [if_neg (by simp only [Option.some.injEq]; exact fun h => hh h.symm)]

theorem touchSeen_fields (i : List Int) (v : Int) (now : Nat) (r : Row) :
    (touchSeen i v now r).ids = r.ids ∧
    (touchSeen i v now r).saved_on = r.saved_on ∧
    (touchSeen i v now r).version = r.version ∧
    (touchSeen i v now r).is_current = r.is_current ∧
    (touchSeen i v now r).data = r.data ∧
    (touchSeen i v now r).data_hash = r.data_hash := by
  unfold touchSeen
  split <;> exact ⟨rfl, rfl, rfl, rfl, rfl, rfl⟩

theorem clearCurrent_fields (i : List Int) (v : Int) (r : Row) :
    (clearCurrent i v r).ids = r.ids ∧
    (clearCurrent i v r).saved_on = r.saved_on ∧
    (clearCurrent i v r).last_seen_on = r.last_seen_on ∧
    (clearCurrent i v r).version = r.version ∧
    (clearCurrent i v r).data = r.data ∧
    (clearCurrent i v r).data_hash = r.data_hash := by
  unfold clearCurrent
  split <;> exact ⟨rfl, rfl, rfl, rfl, rfl, rfl⟩

theorem touchSeen_of_ne (i : List Int) (v : Int) (now : Nat) {r : Row}
    (h : ¬(r.ids = i ∧ r.version = v)) : touchSeen i v now r = r := by
  unfold touchSeen
  rw [if_neg ?_]
  simp only [Bool.and_eq_true, beq_iff_eq]
  exact h

theorem clearCurrent_of_ne (i : List Int) (v : Int) {r : Row}
    (h : ¬(r.ids = i ∧ r.version = v)) : clearCurrent i v r = r := by
  unfold clearCurrent
  rw [if_neg ?_]
  simp only [Bool.and_eq_true, beq_iff_eq]
  exact h

theorem rowsFor_single_of_eq {r : Row} {j : List Int} (h : r.ids = j) :
    rowsFor [r] j = [r] := by
  have hb : (r.ids == j) = true := beq_iff_eq.mpr h
  simp [rowsFor, List.filter, hb]

theorem rowsFor_single_of_ne {r : Row} {j : List Int} (h : r.ids ≠ j) :
    rowsFor [r] j = [] := by
  have hb : (r.ids == j) = false := beq_eq_false_iff_ne.mpr h
  simp [rowsFor, List.filter, hb]

/-- On `dry_run=True` no db changes are made: the table after the call is
the table before it, on every branch. -/

theorem dbInsert_dry {P : Type} {F : ModelFns P} {t : List Row}
    {i : List Int} {p : P} {now : Nat} :
    (dbInsert F t i p true now).2 = t := by
  simp only [dbInsert]
  by_cases h : Option.map (fun r => r.data_hash) (findCurrent t i)
      = some (F.hashForDb p)
  · rw [if_pos h]
    simp
  · rw [if_neg h]
    simp

theorem dbInsert_table_seen {P : Type} {F : ModelFns P} {t : List Row}
    {i : List Int} {p : P} {now : Nat} {rc : Row}
    (hf : findCurrent t i = some rc) (hh : F.hashForDb p = rc.data_hash) :
    (dbInsert F t i p false now).2 = t.map (touchSeen i rc.version now) := by
  rw [dbInsert_eq_seen hf hh]
  rfl

theorem dbInsert_table_first {P : Type} {F : ModelFns P} {t : List Row}
    {i : List Int} {p : P} {now : Nat} (hf : findCurrent t i = none) :
    (dbInsert F t i p false now).2 =
      (t.map (clearCurrent i (-1)))
        ++ [newRow i now 0 (F.rawJson p) (F.hashForDb p)] := by
  rw [dbInsert_eq_first hf]
  rfl

theorem dbInsert_table_changed {P : Type} {F : ModelFns P} {t : List Row}
    {i : List Int} {p : P} {now : Nat} {rc : Row}
    (hf : findCurrent t i = some rc) (hh : F.hashForDb p ≠ rc.data_hash) :
    (dbInsert F t i p false now).2 =
      (t.map (clearCurrent i rc.version))
        ++ [newRow i now (rc.version + 1) (F.rawJson p) (F.hashForDb p)] := by
  rw [dbInsert_eq_changed hf hh]
  rfl

/-- A singleton row set with a current version-0 row is well formed. -/

theorem WFat_single {t : List Row} {i : List Int} {r : Row}
    (h : rowsFor t i = [r]) (hc : r.is_current = true) (hv : r.version = 0) :
    WFat t i := by
  refine ⟨?_, ?_, ?_⟩ <;> rw [h]
  · intro s hs _
    rw [List.mem_singleton] at hs
    subst hs
    simpa using hv
  · exact fun _ => ⟨r, List.mem_singleton_self r, hc⟩
  · rw [List.map_singleton, hv, List.length_singleton]
    decide

/-- Under well-formedness, the only row of `t` satisfying the update
predicate `ids = i AND version = (current version)` is the current row
itself. -/

theorem update_pred_iff {t : List Row} {i : List Int} (hw : WFat t i)
    {rc : Row} (hf : findCurrent t i = some rc) {r : Row} (hr : r ∈ t) :
    ((r.ids == i && r.version == rc.version) = true) ↔ r = rc := by
  obtain ⟨hm, hid, _⟩ := findCurrent_some hf
  constructor
  · intro hcond
    simp only [Bool.and_eq_true, beq_iff_eq] at hcond
    exact row_eq_of_version_eq hw hr hcond.1 hm hid hcond.2
  · intro h
    subst h
    simp [hid]

/-- If the identity has no rows, the version `-1` clearing pass leaves
the table untouched. -/

theorem map_clearCurrent_of_no_rows {t : List Row} {i : List Int}
    (hnil : rowsFor t i = []) : t.map (clearCurrent i (-1)) = t := by
  conv_rhs => rw [← List.map_id t]
  apply List.map_congr_left
  intro r hr
  apply clearCurrent_of_ne
  rintro ⟨hri, _⟩
  have hmem : r ∈ rowsFor t i := mem_rowsFor.mpr ⟨hr, hri⟩
  rw [hnil] at hmem
  exact absurd hmem (List.not_mem_nil r)

/-- The well-formedness invariant is preserved by `insert`, at every
identity and on every branch. -/

theorem WF_dbInsert {P : Type} (F : ModelFns P) {t : List Row} (hw : WF t)
    (i : List Int) (p : P) (dry : Bool) (now : Nat) :
    WF (dbInsert F t i p dry now).2 := by
  cases dry with
  | true => rw [dbInsert_dry]; exact hw
  | false =>
    cases hf : findCurrent t i with
    | none =>
        rw [dbInsert_table_first hf]
        have hnil : rowsFor t i = [] :=
          rowsFor_nil_of_findCurrent_none (hw i) hf
        rw [map_clearCurrent_of_no_rows hnil]
        intro j
        by_cases hj : j = i
        · subst hj
          have hone : rowsFor (t ++ [newRow j now 0 (F.rawJson p)
              (F.hashForDb p)]) j
              = [newRow j now 0 (F.rawJson p) (F.hashForDb p)] := by
            rw [rowsFor_append, hnil, List.nil_append,
              rowsFor_single_of_eq (newRow_ids ..)]
          exact WFat_single hone rfl rfl
        · have hrw : rowsFor (t ++ [newRow i now 0 (F.rawJson p)
              (F.hashForDb p)]) j = rowsFor t j := by
            rw [rowsFor_append, rowsFor_single_of_ne (fun h => hj h.symm),
              List.append_nil]
          exact (WFat_congr hrw).mpr (hw j)
    | some rc =>
        by_cases hh : F.hashForDb p = rc.data_hash
        · rw [dbInsert_table_seen hf hh]
          intro j
          refine WFat_map (fun r => ?_) (hw j)
          obtain ⟨h1, _, h3, h4, _, _⟩ := touchSeen_fields i rc.version now r
          exact ⟨h1, h3, h4⟩
        · rw [dbInsert_table_changed hf hh]
          obtain ⟨hmem, hid, hcur⟩ := findCurrent_some hf
          have hver := findCurrent_version (hw i) hf
          have hg_ids : ∀ r : Row, (clearCurrent i rc.version r).ids = r.ids :=
            fun r => (clearCurrent_fields i rc.version r).1
          have hg_ver : ∀ r : Row,
              (clearCurrent i rc.version r).version = r.version :=
            fun r => (clearCurrent_fields i rc.version r).2.2.2.1
          intro j
          by_cases hj : j = i
          · subst hj
            have hrows : rowsFor ((t.map (clearCurrent j rc.version))
                ++ [newRow j now (rc.version + 1) (F.rawJson p)
                  (F.hashForDb p)]) j
                = (rowsFor t j).map (clearCurrent j rc.version)
                  ++ [newRow j now (rc.version + 1) (F.rawJson p)
                    (F.hashForDb p)] := by
              rw [rowsFor_append, rowsFor_map hg_ids,
                rowsFor_single_of_eq (newRow_ids ..)]
            refine ⟨?_, ?_, ?_⟩ <;> rw [hrows]
            · intro r hr hc
              simp only [List.length_append, List.length_map,
                List.length_singleton]
              rcases List.mem_append.mp hr with hr1 | hr2
              · obtain ⟨s, hs, rfl⟩ := List.mem_map.mp hr1
                exfalso
                by_cases hcond : (s.ids == j && s.version == rc.version) = true
                · unfold clearCurrent at hc
                  rw [if_pos hcond] at hc
                  exact Bool.false_ne_true hc
                · unfold clearCurrent at hc
                  rw [if_neg hcond] at hc
                  have hsv := (hw j).1 s hs hc
                  rw [← hver] at hsv
                  exact hcond (by simp [(mem_rowsFor.mp hs).2, hsv])
              · rw [List.mem_singleton] at hr2
                subst hr2
                unfold newRow
                simp only
                rw [hver]
                push_cast
                ring
            · intro _
              refine ⟨newRow j now (rc.version + 1) (F.rawJson p)
                (F.hashForDb p), ?_, rfl⟩
              exact List.mem_append_right _ (List.mem_singleton_self _)
            · simp only [List.length_append, List.length_map,
                List.length_singleton, List.map_append, List.map_map,
                List.map_singleton]
              have hmv : (rowsFor t j).map ((fun r : Row => r.version) ∘
                  clearCurrent j rc.version)
                  = (rowsFor t j).map (fun r => r.version) := by
                apply List.map_congr_left
                intro r _
                simp only [Function.comp_apply]
                exact hg_ver r
              rw [hmv, List.range_succ, List.map_append]
              apply List.Perm.append (hw j).2.2
              have hvn : (newRow j now (rc.version + 1) (F.rawJson p)
                  (F.hashForDb p)).version = ((rowsFor t j).length : Int) := by
                unfold newRow
                simp only
                rw [hver]
                ring
              rw [hvn]
              rfl
          · have hrows : rowsFor ((t.map (clearCurrent i rc.version))
                ++ [newRow i now (rc.version + 1) (F.rawJson p)
                  (F.hashForDb p)]) j = rowsFor t j := by
              rw [rowsFor_append, rowsFor_map hg_ids,
                rowsFor_single_of_ne (fun h => hj h.symm), List.append_nil]
              conv_rhs => rw [← List.map_id (rowsFor t j)]
              apply List.map_congr_left
              intro r hr
              apply clearCurrent_of_ne
              rintro ⟨hri, _⟩
              exact hj ((mem_rowsFor.mp hr).2.symm.trans hri)
            exact (WFat_congr hrows).mpr (hw j)

theorem forall2_map_self {α : Type} (R : α → α → Prop) (f : α → α) :
    ∀ (l : List α), (∀ a ∈ l, R a (f a)) → List.Forall₂ R l (l.map f) := by
  intro l
  induction l with
  | nil => intro _; exact List.Forall₂.nil
  | cons a l ih =>
      intro h
      exact List.Forall₂.cons (h a (List.mem_cons_self a l))
        (ih (fun b hb => h b (List.mem_cons_of_mem a hb)))

/-- Once an identity has any row, it has exactly one current row. -/

theorem currentCount {t : List Row} {i : List Int} (hw : WFat t i)
    (hne : rowsFor t i ≠ []) :
    (rowsFor t i).countP (fun r => r.is_current) = 1 := by
  have hle : (rowsFor t i).countP (fun r => r.is_current) ≤
      (rowsFor t i).countP
        (fun r => r.version == ((rowsFor t i).length : Int) - 1) := by
    apply List.countP_mono_left
    intro r hr hc
    simp only [beq_iff_eq]
    exact hw.1 r hr hc
  have h1 := countP_version hw (((rowsFor t i).length : Int) - 1)
  have hlenpos : 0 < (rowsFor t i).length := List.length_pos.mpr hne
  rw [if_pos (by omega)] at h1
  have hge : 0 < (rowsFor t i).countP (fun r => r.is_current) := by
    rw [List.countP_pos_iff]
    obtain ⟨r, hr, hc⟩ := hw.2.1 hne
    exact ⟨r, hr, by simp [hc]⟩
  omega

/-- The returned `(wrote, version)` pair never depends on `dry_run`. -/

theorem dbInsert_fst_eq {P : Type} (F : ModelFns P) (t : List Row)
    (i : List Int) (p : P) (now : Nat) (d1 d2 : Bool) :
    (dbInsert F t i p d1 now).1 = (dbInsert F t i p d2 now).1 := by
  simp only [dbInsert]
  by_cases h : Option.map (fun r => r.data_hash) (findCurrent t i)
      = some (F.hashForDb p)
  · rw [if_pos h, if_pos h]
  · rw [if_neg h, if_neg h]

/-- Every row of the table survives an `insert` with its identity,
creation timestamp, version number and payload intact (`is_current` and
`last_seen_on` may change; no row is ever deleted). -/

theorem dbInsert_preserves_rows {P : Type} (F : ModelFns P) (t : List Row)
    (i : List Int) (p : P) (dry : Bool) (now : Nat) :
    ∀ r ∈ t, ∃ r' ∈ (dbInsert F t i p dry now).2,
      r'.ids = r.ids ∧ r'.saved_on = r.saved_on ∧ r'.version = r.version ∧
      r'.data = r.data ∧ r'.data_hash = r.data_hash := by
  intro r hr
  cases dry with
  | true =>
      rw [dbInsert_dry]
      exact ⟨r, hr, rfl, rfl, rfl, rfl, rfl⟩
  | false =>
    cases hf : findCurrent t i with
    | none =>
        rw [dbInsert_table_first hf]
        refine ⟨clearCurrent i (-1) r,
          List.mem_append_left _ (List.mem_map_of_mem _ hr), ?_⟩
        obtain ⟨h1, h2, _, h4, h5, h6⟩ := clearCurrent_fields i (-1) r
        exact ⟨h1, h2, h4, h5, h6⟩
    | some rc =>
        by_cases hh : F.hashForDb p = rc.data_hash
        · rw [dbInsert_table_seen hf hh]
          refine ⟨touchSeen i rc.version now r, List.mem_map_of_mem _ hr, ?_⟩
          obtain ⟨h1, h2, h3, _, h5, h6⟩ := touchSeen_fields i rc.version now r
          exact ⟨h1, h2, h3, h5, h6⟩
        · rw [dbInsert_table_changed hf hh]
          refine ⟨clearCurrent i rc.version r,
            List.mem_append_left _ (List.mem_map_of_mem _ hr), ?_⟩
          obtain ⟨h1, h2, _, h4, h5, h6⟩ := clearCurrent_fields i rc.version r
          exact ⟨h1, h2, h4, h5, h6⟩

/-- A distinct-content insert (no current row, or current row with a
different hash) reports a write with version number = the number of rows
this identity already has: the next contiguous version number. -/

theorem dbInsert_fst_of_no_match {P : Type} (F : ModelFns P) {t : List Row}
    {i : List Int} (hw : WFat t i) (p : P) (dry : Bool) (now : Nat)
    (hd : ∀ rc, findCurrent t i = some rc → F.hashForDb p ≠ rc.data_hash) :
    (dbInsert F t i p dry now).1 = (true, ((rowsFor t i).length : Int)) := by
  cases hf : findCurrent t i with
  | none =>
      rw [dbInsert_eq_first hf]
      have hnil := rowsFor_nil_of_findCurrent_none hw hf
      rw [hnil]
      rfl
  | some rc =>
      rw [dbInsert_eq_changed hf (hd rc hf)]
      have hver := findCurrent_version hw hf
      simp only [Prod.mk.injEq, true_and]
      rw [hver]
      ring

/-- After a distinct-content insert the current row is the freshly
appended one — the change-detection pass never reactivates an older
row. -/

theorem findCurrent_after_changed {t : List Row} {i : List Int}
    (hw : WFat t i) {rc : Row} (hf : findCurrent t i = some rc) (now : Nat)
    (d : String) (hsh : Int) :
    findCurrent ((t.map (clearCurrent i rc.version))
      ++ [newRow i now (rc.version + 1) d hsh]) i
      = some (newRow i now (rc.version + 1) d hsh) := by
  unfold findCurrent
  rw [List.find?_append]
  have hnone : (t.map (clearCurrent i rc.version)).find?
      (fun r => r.ids == i && r.is_current) = none := by
    rw [List.find?_eq_none]
    intro x hx
    obtain ⟨s, hs, rfl⟩ := List.mem_map.mp hx
    by_cases hcond : (s.ids == i && s.version == rc.version) = true
    · unfold clearCurrent
      rw [if_pos hcond]
      simp
    · have hcs : clearCurrent i rc.version s = s := by
        unfold clearCurrent
        rw [if_neg hcond]
      rw [hcs]
      simp only [Bool.and_eq_true, beq_iff_eq, not_and]
      intro hsi hsc
      apply hcond
      have hsv := hw.1 s (mem_rowsFor.mpr ⟨hs, hsi⟩) hsc
      have hver := findCurrent_version hw hf
      simp [hsi, hsv, hver]
  rw [hnone]
  simp [newRow]

theorem WF_foldl {P : Type} (F : ModelFns P) :
    ∀ (ops : List (InsOp P)) (t : List Row), WF t →
      WF (ops.foldl
        (fun t op => (dbInsert F t op.idCols op.item op.dryRun op.time).2)
        t) := by
  intro ops
  induction ops with
  | nil => exact fun t hw => hw
  | cons op ops ih =>
      intro t hw
      exact ih _ (WF_dbInsert F hw op.idCols op.item op.dryRun op.time)

/-- Any table reachable from the empty table by `insert` calls is well
formed. -/

theorem WF_applyOps {P : Type} (F : ModelFns P) (ops : List (InsOp P)) :
    WF (applyOps F ops) :=
  WF_foldl F ops [] WF_nil

theorem applyOps_append_single {P : Type} (F : ModelFns P)
    (ops : List (InsOp P)) (op : InsOp P) :
    applyOps F (ops ++ [op]) =
      (dbInsert F (applyOps F ops) op.idCols op.item op.dryRun op.time).2 := by
  unfold applyOps
  rw [List.foldl_append]
  rfl

/-- C1: for every resource kind (any `ModelFns`), identity and payload:
a second `insert` whose payload hashes to the current row's hash returns
`(false, current version)`, leaves every row's identity, creation
timestamp, version, currency flag, payload and hash unchanged, leaves
rows other than the current one completely unchanged, and sets the
current row's `last_seen_on` to the call's timestamp. -/
theorem claim_C1_idempotent_reinsert {P : Type} (F : ModelFns P)
    {t : List Row} {i : List Int} (hw : WFat t i) {rc : Row}
    (hf : findCurrent t i = some rc) {p : P}
    (hh : F.hashForDb p = rc.data_hash) (now : Nat) :
    (dbInsert F t i p false now).1 = (false, curVersion t i) ∧
    List.Forall₂ (fun r r' =>
      r'.ids = r.ids ∧ r'.saved_on = r.saved_on ∧ r'.version = r.version ∧
      r'.is_current = r.is_current ∧ r'.data = r.data ∧
      r'.data_hash = r.data_hash ∧
      (r = rc → r'.last_seen_on = now) ∧ (r ≠ rc → r' = r))
      t (dbInsert F t i p false now).2 := by
  constructor
  · rw [dbInsert_eq_seen hf hh]
    unfold curVersion
    rw [hf]
  · rw [dbInsert_table_seen hf hh]
    apply forall2_map_self
    intro r hr
    by_cases hcase : r = rc
    · subst hcase
      have hcond : (r.ids == i && r.version == r.version) = true := by
        simp [(findCurrent_some hf).2.1]
      have hts : touchSeen i r.version now r = { r with last_seen_on := now } := by
        unfold touchSeen
        rw [if_pos hcond]
      rw [hts]
      exact ⟨rfl, rfl, rfl, rfl, rfl, rfl, fun _ => rfl,
        fun hne => absurd rfl hne⟩
    · have hts : touchSeen i rc.version now r = r := by
        unfold touchSeen
        rw [if_neg (fun hc => hcase ((update_pred_iff hw hf hr).mp hc))]
      rw [hts]
      exact ⟨rfl, rfl, rfl, rfl, rfl, rfl, fun h => absurd h hcase,
        fun _ => rfl⟩

theorem claim_C1_witness :
    (dbInsert F0 tW [1] "b" false 5).1 = (false, curVersion tW [1]) ∧
    List.Forall₂ (fun r r' =>
      r'.ids = r.ids ∧ r'.saved_on = r.saved_on ∧ r'.version = r.version ∧
      r'.is_current = r.is_current ∧ r'.data = r.data ∧
      r'.data_hash = r.data_hash ∧
      (r = rcW → r'.last_seen_on = 5) ∧ (r ≠ rcW → r' = r))
      tW (dbInsert F0 tW [1] "b" false 5).2 :=
  claim_C1_idempotent_reinsert F0 (by decide) (by decide) (by decide) 5

/-- C4: `insert(..., dry_run=True)` returns exactly the pair the
non-dry-run call would return from the same state, and leaves the table
completely unchanged. -/

theorem claim_C4_dry_run_frame {P : Type} (F : ModelFns P) (t : List Row)
    (i : List Int) (p : P) (now : Nat) :
    (dbInsert F t i p true now).1 = (dbInsert F t i p false now).1 ∧
    (dbInsert F t i p true now).2 = t :=
  ⟨dbInsert_fst_eq F t i p now true false, dbInsert_dry⟩

/-- C2: after any sequence of `insert` calls starting from a fresh
table: once an identity has any row it has exactly one current row; its
version numbers are exactly `0, 1, ..., n-1`, each occurring once; a
distinct-content insert writes the next contiguous number; and no row is
ever deleted (every row survives further inserts with identity, creation
timestamp, version and payload intact). -/

theorem claim_C2_monotonic_versioning {P : Type} (F : ModelFns P)
    (ops : List (InsOp P)) (i : List Int) :
    (rowsFor (applyOps F ops) i ≠ [] →
      (rowsFor (applyOps F ops) i).countP (fun r => r.is_current) = 1) ∧
    (∀ v : Int,
      (rowsFor (applyOps F ops) i).countP (fun r => r.version == v)
        = if 0 ≤ v ∧ v < ((rowsFor (applyOps F ops) i).length : Int)
          then 1 else 0) ∧
    (∀ (p : P) (dry : Bool) (now : Nat),
      (∀ rc, findCurrent (applyOps F ops) i = some rc →
        F.hashForDb p ≠ rc.data_hash) →
      (dbInsert F (applyOps F ops) i p dry now).1
        = (true, ((rowsFor (applyOps F ops) i).length : Int))) ∧
    (∀ (op : InsOp P), ∀ r ∈ applyOps F ops,
      ∃ r' ∈ applyOps F (ops ++ [op]),
        r'.ids = r.ids ∧ r'.saved_on = r.saved_on ∧ r'.version = r.version ∧
        r'.data = r.data ∧ r'.data_hash = r.data_hash) := by
  have hw := WF_applyOps F ops
  refine ⟨currentCount (hw i), countP_version (hw i), ?_, ?_⟩
  · intro p dry now hd
    exact dbInsert_fst_of_no_match F (hw i) p dry now hd
  · intro op r hr
    rw [applyOps_append_single]
    exact dbInsert_preserves_rows F (applyOps F ops) op.idCols op.item
      op.dryRun op.time r hr

theorem claim_C2_witness :
    ((rowsFor (applyOps F0 opsW) [1]).countP (fun r => r.is_current) = 1) ∧
    ((rowsFor (applyOps F0 opsW) [1]).countP (fun r => r.version == (0 : Int))
      = if 0 ≤ (0 : Int) ∧ (0 : Int) < ((rowsFor (applyOps F0 opsW) [1]).length : Int)
        then 1 else 0) ∧
    ((dbInsert F0 (applyOps F0 opsW) [1] "bb" false 1).1
      = (true, ((rowsFor (applyOps F0 opsW) [1]).length : Int))) ∧
    (∃ r' ∈ applyOps F0 (opsW ++ [opW2]),
      r'.ids = r1W.ids ∧ r'.saved_on = r1W.saved_on ∧
      r'.version = r1W.version ∧ r'.data = r1W.data ∧
      r'.data_hash = r1W.data_hash) := by
  refine ⟨(claim_C2_monotonic_versioning F0 opsW [1]).1 (by decide),
    (claim_C2_monotonic_versioning F0 opsW [1]).2.1 0,
    (claim_C2_monotonic_versioning F0 opsW [1]).2.2.1 "bb" false 1 ?_,
    (claim_C2_monotonic_versioning F0 opsW [1]).2.2.2
      opW2 r1W (by decide)⟩
  intro rc hrc
  have hfc : findCurrent (applyOps F0 opsW) [1] = some r1W := by decide
  rw [hfc] at hrc
  have : r1W = rc := Option.some.inj hrc
  subst this
  decide

/-- C10: change detection compares only against the current row: when
the new payload's hash differs from the current row's hash, `insert`
writes a brand-new row with the next version number and makes it current
— even when an older, non-current row has exactly this hash (reverted
content).  The old row survives unchanged (still non-current) and is not
reused or reactivated. -/

theorem claim_C10_revert_new_version {P : Type} (F : ModelFns P)
    {t : List Row} {i : List Int} (hw : WFat t i) {rc : Row}
    (hf : findCurrent t i = some rc) {p : P}
    (hh : F.hashForDb p ≠ rc.data_hash) {rOld : Row} (hm : rOld ∈ t)
    (hmi : rOld.ids = i) (hmc : rOld.is_current = false)
    (_hmh : rOld.data_hash = F.hashForDb p) (now : Nat) :
    (dbInsert F t i p false now).1 = (true, rc.version + 1) ∧
    rOld ∈ (dbInsert F t i p false now).2 ∧
    findCurrent (dbInsert F t i p false now).2 i
      = some (newRow i now (rc.version + 1) (F.rawJson p) (F.hashForDb p)) := by
  have hOldUntouched : clearCurrent i rc.version rOld = rOld := by
    apply clearCurrent_of_ne
    rintro ⟨_, hv⟩
    have : rOld = rc :=
      row_eq_of_version_eq hw hm hmi (findCurrent_some hf).1
        (findCurrent_some hf).2.1 (hv.trans rfl)
    rw [this, (findCurrent_some hf).2.2] at hmc
    exact Bool.noConfusion hmc
  refine ⟨?_, ?_, ?_⟩
  · rw [dbInsert_eq_changed hf hh]
  · rw [dbInsert_table_changed hf hh]
    exact List.mem_append_left _
      (List.mem_map.mpr ⟨rOld, hm, hOldUntouched⟩)
  · rw [dbInsert_table_changed hf hh]
    exact findCurrent_after_changed hw hf now (F.rawJson p) (F.hashForDb p)

theorem claim_C10_witness :
    (dbInsert F0 t10W [1] "a" false 3).1 = (true, rCurW.version + 1) ∧
    rOldW ∈ (dbInsert F0 t10W [1] "a" false 3).2 ∧
    findCurrent (dbInsert F0 t10W [1] "a" false 3).2 [1]
      = some (newRow [1] 3 (rCurW.version + 1) (F0.rawJson "a")
          (F0.hashForDb "a")) :=
  claim_C10_revert_new_version F0 (by decide) (by decide) (by decide)
    (by decide) (by decide) (by decide) (by decide) 3

/-- Lookup commutes with a map that preserves the predicate's inputs:
used for the `last_seen_on`-only update pass. -/
theorem findCurrent_map {t : List Row} {i : List Int} {f : Row → Row}
    (hf : ∀ r, (f r).ids = r.ids ∧ (f r).is_current = r.is_current) :
    findCurrent (t.map f) i = (findCurrent t i).map f := by
  unfold findCurrent
  rw [List.find?_map f t]
  have hpred : ((fun r : Row => r.ids == i && r.is_current) ∘ f)
      = (fun r : Row => r.ids == i && r.is_current) := by
    funext r
    simp [Function.comp, (hf r).1, (hf r).2]
  rw [hpred]

/-- After any non-dry `insert` the identity has a current row whose hash
is the inserted payload's hash. -/

theorem findCurrent_after_insert {P : Type} (F : ModelFns P) {t : List Row}
    {i : List Int} (hw : WF t) (p : P) (now : Nat) :
    ∃ rc', findCurrent (dbInsert F t i p false now).2 i = some rc' ∧
      rc'.data_hash = F.hashForDb p := by
  cases hf : findCurrent t i with
  | none =>
      rw [dbInsert_table_first hf]
      have hnil := rowsFor_nil_of_findCurrent_none (hw i) hf
      rw [map_clearCurrent_of_no_rows hnil]
      refine ⟨newRow i now 0 (F.rawJson p) (F.hashForDb p), ?_, rfl⟩
      unfold findCurrent
      rw [List.find?_append]
      unfold findCurrent at hf
      rw [hf]
      simp [newRow]
  | some rc =>
      by_cases hh : F.hashForDb p = rc.data_hash
      · rw [dbInsert_table_seen hf hh]
        refine ⟨touchSeen i rc.version now rc, ?_, ?_⟩
        · have hmapf := findCurrent_map (t := t) (i := i)
            (f := touchSeen i rc.version now) (fun r => by
              obtain ⟨h1, _, _, h4, _, _⟩ := touchSeen_fields i rc.version now r
              exact ⟨h1, h4⟩)
          rw [hmapf, hf]
          rfl
        · rw [(touchSeen_fields i rc.version now rc).2.2.2.2.2, hh]
      · rw [dbInsert_table_changed hf hh]
        exact ⟨newRow i now (rc.version + 1) (F.rawJson p) (F.hashForDb p),
          findCurrent_after_changed (hw i) hf now (F.rawJson p)
            (F.hashForDb p), rfl⟩

/-- C3, as stated, fails at a concrete input: two Course payloads that
differ only in the `token` query parameter of `image_download_url` do
hash identically and trigger no new version, but the persisted payload of
the current row is then the raw JSON of the FIRST fetch — it does not
reflect the latest raw fetch result. -/

theorem claim_C3_counterexample :
    ¬ ((courseFns H0).hashForDb d1C = (courseFns H0).hashForDb d2C ∧
       (dbInsert (courseFns H0) t1C [7] d2C false 1).1.1 = false ∧
       (findCurrent (dbInsert (courseFns H0) t1C [7] d2C false 1).2 [7]).map
         (fun r => r.data) = some (jsonDumpsSorted d2C)) := by
  decide

/-- C3 amended: for every digest `H` and every pair of Course payloads
with equal normalized projections (in particular payloads differing only
in a `token` query parameter): the content hashes are equal, inserting
the second after the first writes no new version, and the persisted
payload of the current row stays the raw payload that created the
current version — the second (latest) raw fetch is not persisted. -/

theorem claim_C3_normalization_amended (H : CourseData → Int)
    {d1 d2 : CourseData}
    (hnorm : courseHashNormalized d1 = courseHashNormalized d2)
    {t : List Row} {i : List Int} (hw : WF t) (n1 n2 : Nat) :
    (courseFns H).hashForDb d1 = (courseFns H).hashForDb d2 ∧
    (dbInsert (courseFns H) (dbInsert (courseFns H) t i d1 false n1).2
      i d2 false n2).1.1 = false ∧
    (findCurrent (dbInsert (courseFns H)
        (dbInsert (courseFns H) t i d1 false n1).2 i d2 false n2).2 i).map
      (fun r => r.data)
      = (findCurrent (dbInsert (courseFns H) t i d1 false n1).2 i).map
        (fun r => r.data) := by
  have hasheq : (courseFns H).hashForDb d1 = (courseFns H).hashForDb d2 := by
    simp only [courseFns, hnorm]
  have hw1 := WF_dbInsert (courseFns H) hw i d1 false n1
  obtain ⟨rc1, hfc1, hhash1⟩ := findCurrent_after_insert (courseFns H) hw d1 n1
  have hh2 : (courseFns H).hashForDb d2 = rc1.data_hash := by
    rw [← hasheq, hhash1]
  refine ⟨hasheq, ?_, ?_⟩
  · rw [dbInsert_eq_seen hfc1 hh2]
  · rw [dbInsert_table_seen hfc1 hh2]
    have hmapf := findCurrent_map
      (t := (dbInsert (courseFns H) t i d1 false n1).2) (i := i)
      (f := touchSeen i rc1.version n2) (fun r => by
        obtain ⟨h1, _, _, h4, _, _⟩ := touchSeen_fields i rc1.version n2 r
        exact ⟨h1, h4⟩)
    rw [hmapf, hfc1]
    simp only [Option.map_some']
    congr 1
    exact (touchSeen_fields i rc1.version n2 rc1).2.2.2.2.1

theorem claim_C3_amended_witness :
    (courseFns H0).hashForDb d1C = (courseFns H0).hashForDb d2C ∧
    (dbInsert (courseFns H0) (dbInsert (courseFns H0) [] [7] d1C false 0).2
      [7] d2C false 1).1.1 = false ∧
    (findCurrent (dbInsert (courseFns H0)
        (dbInsert (courseFns H0) [] [7] d1C false 0).2 [7] d2C false 1).2
        [7]).map (fun r => r.data)
      = (findCurrent (dbInsert (courseFns H0) [] [7] d1C false 0).2 [7]).map
        (fun r => r.data) :=
  claim_C3_normalization_amended H0 (by decide) WF_nil 0 1

theorem paginateLoop_requests {α : Type} (remote : Request → PageResponse α)
    (method : String) :
    ∀ (fuel : Nat) (nxt : Option String),
      ∀ r ∈ (paginateLoop remote method fuel nxt).2,
        r.params = [] ∧ r.method = method := by
  intro fuel
  induction fuel with
  | zero =>
      intro nxt r hr
      cases nxt <;> simp [paginateLoop] at hr
  | succ n ih =>
      intro nxt r hr
      cases nxt with
      | none => simp [paginateLoop] at hr
      | some u =>
          simp only [paginateLoop] at hr
          rcases List.mem_cons.mp hr with h | h
          · subst h
            exact ⟨rfl, rfl⟩
          · exact ih _ r h

/-- C5: three pages of two items linked via `next` yield all six items in
original order with exactly three requests; no `next` link on the first
response means exactly one request; and every request after the first
carries only the link's target URL and the forwarded method — the
first-request query parameters are never resent. -/

theorem claim_C5_pagination :
    (paginate remote3 "p0" [("per_page", "2")] "GET" 10).1
      = [1, 2, 3, 4, 5, 6] ∧
    (paginate remote3 "p0" [("per_page", "2")] "GET" 10).2.length = 3 ∧
    (paginate remote1 "p0" [("per_page", "2")] "GET" 10).2.length = 1 ∧
    (paginate remote3 "p0" [("per_page", "2")] "GET" 10).2
      = [{ url := "p0", params := [("per_page", "2")], method := "GET" },
         { url := "p1", params := [], method := "GET" },
         { url := "p2", params := [], method := "GET" }] ∧
    (∀ (α : Type) (remote : Request → PageResponse α) (path : String)
      (params : List (String × String)) (method : String) (fuel : Nat),
      ∀ r ∈ (paginate remote path params method fuel).2.tail,
        r.params = [] ∧ r.method = method) := by
  refine ⟨by decide, by decide, by decide, by decide, ?_⟩
  intro α remote path params method fuel r hr
  exact paginateLoop_requests remote method fuel _ r hr

theorem claim_C5_witness :
    ({ url := "p1", params := [], method := "GET" } : Request).params = []
    ∧ ({ url := "p1", params := [], method := "GET" } : Request).method
      = "GET" :=
  claim_C5_pagination.2.2.2.2 Nat remote3 "p0" [("per_page", "2")] "GET" 10
    { url := "p1", params := [], method := "GET" } (by decide)

/-- C6 fails on the code: the hash comparison puts a hash object against
raw digest bytes, so it reports "different" for every input, and a
byte-identical download (here content `[65]`, already on disk as entry
`"00000 f"`) still creates the second numbered entry `"00001 f"`. -/
theorem claim_C6_dedup_bug :
    (∀ (h : HashObj) (b : List Nat), hashObjNeBytes h b = true) ∧
    placeDownload (FSNode.dir [("00000 f", [65])]) [65] 1 "f"
      = { node := FSNode.dir [("00000 f", [65]), ("00001 f", [65])],
          cwdEntries := [], tempRemains := false, assertFailed := false } :=
  ⟨fun _ _ => rfl, by decide⟩

/-- C7 fails on the code: migrating a bare file (content `[65]`) on
arrival of different content `[66]` renames the old file to the
cwd-relative path `"00000 f"` instead of into the new directory: the
directory afterwards holds only the new entry `"00001 f"`, and the
original bytes sit in the process working directory. -/

theorem claim_C7_migration_bug :
    placeDownload (FSNode.bare [65]) [66] 1 "f"
      = { node := FSNode.dir [("00001 f", [66])],
          cwdEntries := [("00000 f", [65])], tempRemains := false,
          assertFailed := false } ∧
    (dirEntries (placeDownload (FSNode.bare [65]) [66] 1 "f").node).all
      (fun e => e.1 != "00000 f") := by
  decide

/-- C8, as stated, fails at a concrete input: the canonical path holds a
directory with no entries; the placement is a no-op, which is an exit
path of the download, yet the temporary file (created with
`delete=False`) is not deleted. -/

theorem claim_C8_counterexample :
    ¬ ((placeDownload (FSNode.dir []) [65] 1 "f").tempRemains = false) := by
  decide

theorem placeDownload_absent (b : List Nat) (v : Int) (name : String) :
    placeDownload FSNode.absent b v name
      = { node := FSNode.bare b, cwdEntries := [], tempRemains := false,
          assertFailed := false } := rfl

theorem placeDownload_dir_empty {es : List (String × List Nat)}
    (hle : latestEntry es = none) (b : List Nat) (v : Int) (name : String) :
    placeDownload (FSNode.dir es) b v name
      = { node := FSNode.dir es, cwdEntries := [], tempRemains := true,
          assertFailed := false } := by
  simp [placeDownload, hle]

theorem placeDownload_dir_clash {es : List (String × List Nat)}
    {latest : String × List Nat} (hle : latestEntry es = some latest)
    {b : List Nat} {v : Int} {name : String}
    (ha : (es.any fun e => e.1 == pad5 v ++ " " ++ name) = true) :
    placeDownload (FSNode.dir es) b v name
      = { node := FSNode.dir es, cwdEntries := [], tempRemains := true,
          assertFailed := true } := by
  simp [placeDownload, hashObjNeBytes, hle, ha]

theorem placeDownload_dir_append {es : List (String × List Nat)}
    {latest : String × List Nat} (hle : latestEntry es = some latest)
    {b : List Nat} {v : Int} {name : String}
    (ha : (es.any fun e => e.1 == pad5 v ++ " " ++ name) = false) :
    placeDownload (FSNode.dir es) b v name
      = { node := FSNode.dir (es ++ [(pad5 v ++ " " ++ name, b)]),
          cwdEntries := [], tempRemains := false, assertFailed := false } := by
  simp [placeDownload, hashObjNeBytes, hle, ha]

theorem placeDownload_bare_assert {v : Int} (hv : (v == 0) = true)
    (c b : List Nat) (name : String) :
    placeDownload (FSNode.bare c) b v name
      = { node := FSNode.dir [], cwdEntries := [], tempRemains := true,
          assertFailed := true } := by
  simp [placeDownload, hashObjNeBytes, hv]

theorem placeDownload_bare_migrate {v : Int} (hv : (v == 0) = false)
    (c b : List Nat) (name : String) :
    placeDownload (FSNode.bare c) b v name
      = { node := FSNode.dir [(pad5 v ++ " " ++ name, b)],
          cwdEntries := [("00000 " ++ name, c)], tempRemains := false,
          assertFailed := false } := by
  simp [placeDownload, hashObjNeBytes, hv]

/-- C8 amended: the code never deletes the temporary download file — it
disappears only by being renamed into the mirror.  On every branch that
completes without an `AssertionError` and leaves the temporary file
behind, the mirror and the working directory are untouched; whenever the
temporary file is gone, its bytes are in the mirror; and the
empty-directory path is a concrete no-op exit path on which the
temporary file remains. -/

theorem claim_C8_temp_cleanup_amended (node : FSNode) (b : List Nat)
    (v : Int) (name : String) :
    ((placeDownload node b v name).tempRemains = true →
      (placeDownload node b v name).assertFailed = false →
      (placeDownload node b v name).node = node ∧
      (placeDownload node b v name).cwdEntries = []) ∧
    ((placeDownload node b v name).tempRemains = false →
      ((placeDownload node b v name).node = FSNode.bare b ∨
        ∃ e ∈ dirEntries (placeDownload node b v name).node, e.2 = b)) ∧
    (placeDownload (FSNode.dir []) b v name).tempRemains = true := by
  refine ⟨?_, ?_, rfl⟩
  · intro ht hasrt
    cases node with
    | absent =>
        rw [placeDownload_absent] at ht
        exact absurd ht (by simp)
    | bare c =>
        cases hv : (v == 0) with
        | true =>
            rw [placeDownload_bare_assert hv] at hasrt
            exact absurd hasrt (by simp)
        | false =>
            rw [placeDownload_bare_migrate hv] at ht
            exact absurd ht (by simp)
    | dir es =>
        cases hle : latestEntry es with
        | none =>
            rw [placeDownload_dir_empty hle]
            exact ⟨rfl, rfl⟩
        | some latest =>
            cases ha : (es.any fun e => e.1 == pad5 v ++ " " ++ name) with
            | true =>
                rw [placeDownload_dir_clash hle ha]
                exact ⟨rfl, rfl⟩
            | false =>
                rw [placeDownload_dir_append hle ha] at ht
                exact absurd ht (by simp)
  · intro ht
    cases node with
    | absent =>
        rw [placeDownload_absent]
        exact Or.inl rfl
    | bare c =>
        cases hv : (v == 0) with
        | true =>
            rw [placeDownload_bare_assert hv] at ht
            exact absurd ht (by simp)
        | false =>
            rw [placeDownload_bare_migrate hv]
            exact Or.inr ⟨(pad5 v ++ " " ++ name, b), by simp [dirEntries]⟩
    | dir es =>
        cases hle : latestEntry es with
        | none =>
            rw [placeDownload_dir_empty hle] at ht
            exact absurd ht (by simp)
        | some latest =>
            cases ha : (es.any fun e => e.1 == pad5 v ++ " " ++ name) with
            | true =>
                rw [placeDownload_dir_clash hle ha] at ht
                exact absurd ht (by simp)
            | false =>
                rw [placeDownload_dir_append hle ha]
                exact Or.inr ⟨(pad5 v ++ " " ++ name, b),
                  by simp [dirEntries]⟩

theorem claim_C8_witness :
    (placeDownload (FSNode.dir []) [65] 1 "f").node = FSNode.dir [] ∧
    (placeDownload (FSNode.dir []) [65] 1 "f").cwdEntries = [] :=
  (claim_C8_temp_cleanup_amended (FSNode.dir []) [65] 1 "f").1 (by decide)
    (by decide)

/-- C9, as stated, fails at a concrete input: a decoding failure
(malformed page body) while listing one sub-container's files is NOT
caught — the run aborts at that folder (the sibling folder `1`'s files
are never recorded) instead of continuing. -/
theorem claim_C9_counterexample :
    ¬ ∃ st, processFolders envC9 10 [0] runStart = Except.ok st := by
  intro hex
  obtain ⟨st, h⟩ := hex
  have he : processFolders envC9 10 [0] runStart = Except.error 2 := by
    rfl
  rw [he] at h
  exact Except.noConfusion h

/-- C9 amended: only bad-status failures (`ClientResponseError`) are
caught at the folder's scope.  When neither listing ever fails with a
decode error, the run always completes; with a caught bad-status failure
on one folder, the error is logged there and the sibling's files are
still recorded; a decode failure aborts the whole run. -/

theorem claim_C9_fault_isolation_amended :
    (∀ (env : FolderEnv) (fuel : Nat) (queue : List Nat) (st : RunState),
      (∀ n e, env.subfolders n = Except.error e → e = LErr.clientResponse) →
      (∀ n e, env.files n = Except.error e → e = LErr.clientResponse) →
      ∃ st', processFolders env fuel queue st = Except.ok st') ∧
    (processFolders envC9b 10 [0] runStart
      = Except.ok { folderRows := [1, 2], fileRows := [10],
                    logs := [(2, LErr.clientResponse)] }) ∧
    (processFolders envC9 10 [0] runStart = Except.error 2) := by
  refine ⟨?_, by rfl, by rfl⟩
  intro env fuel
  induction fuel with
  | zero =>
      intro queue st _ _
      cases queue with
      | nil => exact ⟨st, rfl⟩
      | cons c cs => exact ⟨st, rfl⟩
  | succ n ih =>
      intro queue st hs hf
      cases queue with
      | nil => exact ⟨st, rfl⟩
      | cons cur rest =>
          cases hsub : env.subfolders cur with
          | error e =>
              have he := hs cur e hsub
              subst he
              simp only [processFolders, hsub]
              cases hfil : env.files cur with
              | error e2 =>
                  have he2 := hf cur e2 hfil
                  subst he2
                  exact ih _ _ hs hf
              | ok fs => exact ih _ _ hs hf
          | ok subs =>
              simp only [processFolders, hsub]
              cases hfil : env.files cur with
              | error e2 =>
                  have he2 := hf cur e2 hfil
                  subst he2
                  exact ih _ _ hs hf
              | ok fs => exact ih _ _ hs hf

theorem claim_C9_witness :
    ∃ st', processFolders envC9b 10 [0] runStart = Except.ok st' :=
  claim_C9_fault_isolation_amended.1 envC9b 10 [0] runStart
    (fun n e h => by
      simp only [envC9b] at h
      exact Except.noConfusion h)
    (fun n e h => by
      by_cases hn : n = 2
      · subst hn
        simp only [envC9b, if_pos rfl] at h
        exact (Except.error.inj h).symm
      · simp only [envC9b, if_neg hn] at h
        exact Except.noConfusion h)

end CanvasDL
